import Mathlib

/-! Shallow embedding of webborer, a concurrent web content-discovery
scanner, covering the HTML worker (worker package), the Mangler, the scan
settings (settings package) and the work queue, with proofs of the
specified properties. Go library functions (url.Parse, ResolveReference,
html.Parse) are taken as parameters or as already-performed inputs; machine
integers are modelled as Int. -/

namespace Webborer

/-! ## HTML worker -/

/-- A parsed HTML node, as exposed by the Go x/net/html package: whether the
node is an element node, its Data (tag name), its Attr list of key-value
attributes, and its children in order. -/
inductive HNode where
  | mk (isElement : Bool) (data : String) (attrs : List (String × String))
      (children : List HNode)

/-- Go strings.ToLower: every character mapped to its lower case form. -/
def toLowerStr (s : String) : String := ⟨s.data.map Char.toLower⟩

/-- The value of the first attribute whose lowercased key is "href", as a
list of at most one element: the Go loop over node.Attr breaks at the first
match. -/
def firstHref : List (String × String) → List String
  | [] => []
  | (k, v) :: rest => if toLowerStr k = "href" then [v] else firstHref rest

mutual

/-- The recursive handleNode closure of HTMLWorker.GetLinks: an element node
whose lowercased tag is "a" contributes the value of its first href
attribute, then the children are visited in order. -/
def nodeLinks : HNode → List String
  | HNode.mk isElement data attrs children =>
    (if isElement && (toLowerStr data == "a") then firstHref attrs else [])
      ++ forestLinks children

/-- Visit of a list of sibling nodes, first child to last. -/
def forestLinks : List HNode → List String
  | [] => []
  | n :: ns => nodeLinks n ++ forestLinks ns

end

/-- Modelled from the spec: util.DedupeStrings is code of this repository
that is not under src (only its caller HTMLWorker.GetLinks is). The spec
says the link output is de-duplicated into a set of strings where only
distinctness matters, so we keep one copy of each element. -/
def DedupeStrings (l : List String) : List String := l.dedup

/-- HTMLWorker.GetLinks: html.Parse of the body either fails, in which case
the failure is logged and nil is returned, or yields a tree; the tree is
walked collecting anchor href values, and the list is de-duplicated. The
parse outcome is the input here, since html.Parse is a Go library
function. -/
def GetLinks : Except String HNode → List String
  | Except.error _ => []
  | Except.ok tree => DedupeStrings (nodeLinks tree)

/-- HTMLWorker.Eligible: contentType is the value of the Content-type
response header and contentLength the int64 ContentLength field of the
response. -/
def Eligible (contentType : String) (contentLength : Int) : Bool :=
  if toLowerStr contentType ≠ "text/html" then false
  else decide (contentLength > 0) && decide (contentLength < 1024 * 1024)

/-- The loop of HTMLWorker.Handle: starting from an empty slice, each link
string is parsed; a parse error is logged and the link skipped, otherwise
the parsed reference is resolved against the document URL and appended.
url.Parse and URL.ResolveReference are Go library functions, taken as
parameters over an arbitrary URL type. -/
def foundURLs (URLT : Type) (parse : String → Except String URLT)
    (resolve : URLT → URLT → URLT) (base : URLT) : List String → List URLT
  | [] => []
  | l :: rest =>
    match parse l with
    | Except.error _ => foundURLs URLT parse resolve base rest
    | Except.ok u => resolve base u :: foundURLs URLT parse resolve base rest

/-- HTMLWorker.Handle: extracts the links of the body and calls the adder
exactly once, with every link that parsed, resolved against the document
URL. The result is the list of adder invocations, each invocation being the
list of URLs it was passed. -/
def Handle (URLT : Type) (parse : String → Except String URLT)
    (resolve : URLT → URLT → URLT) (base : URLT)
    (body : Except String HNode) : List (List URLT) :=
  [foundURLs URLT parse resolve base (GetLinks body)]

theorem foundURLs_eq_filterMap (URLT : Type) (parse : String → Except String URLT)
    (resolve : URLT → URLT → URLT) (base : URLT) (links : List String) :
    foundURLs URLT parse resolve base links
      = links.filterMap (fun l => (parse l).toOption.map (resolve base)) := by
  induction links with
  | nil => rfl
  | cons l rest ih =>
    cases h : parse l <;> simp [foundURLs, h, ih, Except.toOption]

/-- C1: Eligible returns true iff the lowercased content type is exactly
text/html and the content length is strictly between 0 and 1048576; in
particular length 0 and length 1048576 are ineligible and length 1 with
content type text/html is eligible. -/
theorem eligible_spec (ct : String) (len : Int) :
    (Eligible ct len = true ↔
      toLowerStr ct = "text/html" ∧ 0 < len ∧ len < 1048576)
    ∧ Eligible "text/html" 0 = false
    ∧ Eligible "text/html" 1048576 = false
    ∧ Eligible "text/html" 1 = true := by
  refine ⟨?_, by decide, by decide, by decide⟩
  by_cases h : toLowerStr ct = "text/html" <;>
    simp [Eligible, h, and_assoc]

/-- C2: on a successfully parsed tree, GetLinks returns exactly the anchor
href values collected by the tree walk, with each distinct value appearing
at most once however often it occurs in the document. -/
theorem getLinks_dedup_spec (tree : HNode) :
    (∀ s, s ∈ GetLinks (Except.ok tree) ↔ s ∈ nodeLinks tree)
    ∧ ∀ s, (GetLinks (Except.ok tree)).count s ≤ 1 := by
  constructor
  · intro s
    simp [GetLinks, DedupeStrings]
  · intro s
    exact List.nodup_iff_count_le_one.mp (List.nodup_dedup _) s

/-- C3: Handle makes a single adder call, passing exactly the resolved forms
of those extracted links that parse; a link that fails URL parsing is
skipped without affecting the others. -/
theorem handle_spec (URLT : Type) (parse : String → Except String URLT)
    (resolve : URLT → URLT → URLT) (base : URLT) (body : Except String HNode) :
    Handle URLT parse resolve base body
      = [(GetLinks body).filterMap (fun l => (parse l).toOption.map (resolve base))] := by
  simp [Handle, foundURLs_eq_filterMap]

/-- C4: when parsing the HTML body fails, GetLinks returns the empty link
collection rather than propagating the error. -/
theorem getLinks_error_spec (e : String) : GetLinks (Except.error e) = [] := rfl

/-! ## Mangler -/

/-- Modelled from the spec: the worker Mangle function is code of this
repository that is not under src (only its test TestMangle is). Per the
spec, for a bare name with no extension delimiter it returns the name
itself together with name ++ "." ++ ext for each configured extension, in
a pure and never-failing way. -/
def Mangle (name : String) (extensions : List String) : List String :=
  name :: extensions.map (fun ext => name ++ "." ++ ext)

theorem data_empty_str : ("" : String).data = [] := rfl

theorem data_dot_str : ("." : String).data = ['.'] := rfl

theorem mangle_variant_ne (name ext : String) : name ++ "." ++ ext ≠ name := by
  intro h
  have hd := congrArg String.data h
  simp only [String.data_append, data_dot_str] at hd
  have hl := congrArg List.length hd
  simp at hl

theorem mangle_variant_inj (name : String) :
    Function.Injective (fun ext => name ++ "." ++ ext) := by
  intro a b h
  have hd := congrArg String.data h
  simp only [String.data_append, data_dot_str, List.append_assoc,
    List.cons_append, List.nil_append, List.append_cancel_left_eq,
    List.cons.injEq, true_and] at hd
  exact String.ext hd

/-- C5: for a name with no extension delimiter, Mangle returns exactly the
name together with name ++ "." ++ ext for each extension; every variant
contains the name as a substring; with duplicate-free extensions the result
has len extensions variants in addition to the name and no duplicates; the
empty extension list yields the name alone; and Mangle is deterministic. -/
theorem mangle_spec (name : String) (extensions : List String)
    (hname : name.data.contains '.' = false) :
    (∀ v, v ∈ Mangle name extensions ↔
        v = name ∨ ∃ ext ∈ extensions, v = name ++ "." ++ ext)
    ∧ (∀ v ∈ Mangle name extensions, ∃ p q, v = p ++ name ++ q)
    ∧ (Mangle name extensions).length = extensions.length + 1
    ∧ (extensions.Nodup → (Mangle name extensions).Nodup)
    ∧ Mangle name [] = [name]
    ∧ Mangle name extensions = Mangle name extensions := by
  refine ⟨?_, ?_, by simp [Mangle], ?_, rfl, rfl⟩
  · intro v
    simp only [Mangle, List.mem_cons, List.mem_map]
    constructor
    · rintro (rfl | ⟨ext, hext, rfl⟩)
      · exact Or.inl rfl
      · exact Or.inr ⟨ext, hext, rfl⟩
    · rintro (rfl | ⟨ext, hext, rfl⟩)
      · exact Or.inl rfl
      · exact Or.inr ⟨ext, hext, rfl⟩
  · intro v hv
    simp only [Mangle, List.mem_cons, List.mem_map] at hv
    rcases hv with rfl | ⟨ext, _, rfl⟩
    · refine ⟨"", "", String.ext ?_⟩
      simp [String.data_append, data_empty_str]
    · refine ⟨"", "." ++ ext, String.ext ?_⟩
      simp [String.data_append, data_empty_str]
  · intro hnd
    refine List.nodup_cons.mpr ⟨?_, hnd.map (mangle_variant_inj name)⟩
    intro hmem
    rcases List.mem_map.mp hmem with ⟨ext, _, hext⟩
    exact mangle_variant_ne name ext hext

/-- C5 witness at name "foo", extensions ["html", "php"]. -/
theorem mangle_spec_witness : "foo" ∈ Mangle "foo" ["html", "php"] :=
  ((mangle_spec "foo" ["html", "php"] (by decide)).1 "foo").mpr (Or.inl rfl)

/-! ## Scan settings -/

/-- A Go net/url URL, with the components GetScopes touches; the remaining
components (query, fragment, user info and so on) are collapsed into one
opaque field. -/
structure GoURL where
  scheme : String
  host : String
  path : String
  rest : String
deriving DecidableEq

/-- The path normalization of GetScopes: a parsed URL whose path is empty
gets path "/". -/
def adjustPath (u : GoURL) : GoURL :=
  if u.path = "" then { u with path := "/" } else u

/-- ScanSettings.GetScopes: each configured base URL string is parsed in
order (url.Parse is a Go library function, taken as a parameter); the first
parse failure aborts with a wrapped error; on success each parsed URL with
an empty path gets path "/". -/
def GetScopes (parse : String → Except String GoURL) :
    List String → Except String (List GoURL)
  | [] => Except.ok []
  | b :: rest =>
    match parse b with
    | Except.error e =>
        Except.error ("Unable to parse BaseURL (" ++ b ++ "): " ++ e)
    | Except.ok u =>
        match GetScopes parse rest with
        | Except.error e => Except.error e
        | Except.ok us => Except.ok (adjustPath u :: us)

/-- C6: GetScopes fails iff some base URL fails to parse; on success it
returns one scope per base URL in order, each the parse result with an
empty path replaced by "/". -/
theorem getScopes_spec (parse : String → Except String GoURL)
    (baseURLs : List String) :
    ((∃ e, GetScopes parse baseURLs = Except.error e) ↔
       ∃ b ∈ baseURLs, ∃ e, parse b = Except.error e)
    ∧ ∀ us, GetScopes parse baseURLs = Except.ok us ↔
        List.Forall₂ (fun b u => ∃ v, parse b = Except.ok v ∧ u = adjustPath v)
          baseURLs us := by
  induction baseURLs with
  | nil =>
    constructor
    · simp [GetScopes]
    · intro us
      constructor
      · intro h
        cases h
        exact List.Forall₂.nil
      · intro h
        cases h
        rfl
  | cons b rest ih =>
    constructor
    · constructor
      · intro ⟨e, he⟩
        simp only [GetScopes] at he
        cases hp : parse b with
        | error e0 => exact ⟨b, List.mem_cons_self b rest, e0, hp⟩
        | ok u =>
          rw [hp] at he
          cases hr : GetScopes parse rest with
          | error e1 =>
            rcases ih.1.mp ⟨e1, hr⟩ with ⟨b0, hb0, he0⟩
            exact ⟨b0, List.mem_cons_of_mem b hb0, he0⟩
          | ok us => rw [hr] at he; cases he
      · intro ⟨b0, hb0, e0, he0⟩
        rcases List.mem_cons.mp hb0 with rfl | hb0
        · exact ⟨"Unable to parse BaseURL (" ++ b0 ++ "): " ++ e0,
            by simp [GetScopes, he0]⟩
        · cases hp : parse b with
          | error e1 =>
            exact ⟨"Unable to parse BaseURL (" ++ b ++ "): " ++ e1,
              by simp [GetScopes, hp]⟩
          | ok u =>
            rcases ih.1.mpr ⟨b0, hb0, e0, he0⟩ with ⟨e1, he1⟩
            exact ⟨e1, by simp [GetScopes, hp, he1]⟩
    · intro us
      constructor
      · intro h
        simp only [GetScopes] at h
        cases hp : parse b with
        | error e0 => rw [hp] at h; cases h
        | ok u =>
          rw [hp] at h
          cases hr : GetScopes parse rest with
          | error e1 => rw [hr] at h; cases h
          | ok us0 =>
            rw [hr] at h
            cases h
            exact List.Forall₂.cons ⟨u, hp, rfl⟩ ((ih.2 us0).mp hr)
      · intro h
        cases h with
        | cons hu hrest =>
          rcases hu with ⟨v, hv, rfl⟩
          have hr := (ih.2 _).mpr hrest
          simp [GetScopes, hv, hr]

/-- The scan settings struct: every field of the Go ScanSettings, with
time.Duration as nanosecond counts and int as Int. -/
structure ScanSettings where
  BaseURLs : List String
  Threads : Int
  Workers : Int
  ExcludePaths : List String
  Proxies : List String
  ParseHTML : Bool
  SleepTime : Int
  LogfilePath : String
  LogLevel : String
  WordlistPath : String
  Extensions : List String
  Mangle : Bool
  QueueSize : Int
  Timeout : Int
  OutputFormat : String
  OutputPath : String
  UserAgent : String
  IncludeRedirects : Bool
  RobotsMode : Int
  AllowHTTPSUpgrade : Bool
  SpiderCodes : List Int
  DebugCPUProf : Bool
  configPath : String
  flagsSet : Bool
deriving DecidableEq

/-- ScanSettings.Validate: prints usage and returns an error when no base
URL is configured, nil otherwise; it never assigns a settings field, which
the embedding records by returning the unchanged settings alongside the
error outcome. -/
def Validate (settings : ScanSettings) : Option String × ScanSettings :=
  if settings.BaseURLs.length = 0 then (some "URL is required.", settings)
  else (none, settings)

/-- C7: Validate errors exactly when the base URL list is empty, and leaves
the settings unchanged in both cases. -/
theorem validate_spec (settings : ScanSettings) :
    ((Validate settings).1.isSome ↔ settings.BaseURLs = [])
    ∧ (Validate settings).2 = settings := by
  by_cases h : settings.BaseURLs.length = 0 <;>
    simp_all [Validate, List.length_eq_zero]

/-! ## IntSliceFlag -/

/-- Go unicode.IsSpace on the Latin-1 range: tab, newline, vertical tab,
form feed, carriage return, space, next line and no-break space. -/
def isGoSpace (c : Char) : Bool :=
  c.toNat == 9 || c.toNat == 10 || c.toNat == 11 || c.toNat == 12
    || c.toNat == 13 || c.toNat == 32 || c.toNat == 0x85 || c.toNat == 0xa0

/-- Go strings.TrimSpace: white space dropped from both ends. -/
def trimSpace (s : String) : String :=
  ⟨((s.data.dropWhile isGoSpace).reverse.dropWhile isGoSpace).reverse⟩

/-- Decimal value of a digit list, most significant first. -/
def digitsToNat (l : List Char) : Nat :=
  l.foldl (fun acc c => acc * 10 + (c.toNat - 48)) 0

/-- Go strconv.Atoi: an optional sign followed by at least one decimal
digit, with the value required to fit in a signed 64-bit int; anything else
is an error, modelled as none. -/
def Atoi (s : String) : Option Int :=
  let core : Bool × List Char :=
    match s.data with
    | '-' :: rest => (true, rest)
    | '+' :: rest => (false, rest)
    | l => (false, l)
  if core.2 = [] then none
  else if core.2.all Char.isDigit then
    let v : Int :=
      if core.1 then -(digitsToNat core.2 : Int) else (digitsToNat core.2 : Int)
    if -(2 ^ 63) ≤ v ∧ v < 2 ^ 63 then some v else none
  else none

/-- The loop of IntSliceFlag.Set: the comma-split components are trimmed
and parsed in order; the first failure stops the loop with the error the
Go code formats, which names the untrimmed component. -/
def parseIntComponents : List String → Except String (List Int)
  | [] => Except.ok []
  | v :: rest =>
    match Atoi (trimSpace v) with
    | none => Except.error ("Unable to parse " ++ v ++ " as int.")
    | some i =>
      match parseIntComponents rest with
      | Except.error e => Except.error e
      | Except.ok ints => Except.ok (i :: ints)

/-- IntSliceFlag.Set: the Go code assigns the pointed-to slice only after
the whole loop succeeds, so on error the old slice survives. -/
def IntSliceFlagSet (old : List Int) (value : String) :
    Option String × List Int :=
  match parseIntComponents (value.splitOn ",") with
  | Except.error e => (some e, old)
  | Except.ok ints => (none, ints)

theorem parseIntComponents_error_iff (comps : List String) :
    (∃ e, parseIntComponents comps = Except.error e) ↔
      ∃ c ∈ comps, Atoi (trimSpace c) = none := by
  induction comps with
  | nil => simp [parseIntComponents]
  | cons v rest ih =>
    cases ha : Atoi (trimSpace v) with
    | none =>
      constructor
      · intro _
        exact ⟨v, List.mem_cons_self v rest, ha⟩
      · intro _
        exact ⟨"Unable to parse " ++ v ++ " as int.",
          by simp [parseIntComponents, ha]⟩
    | some i =>
      constructor
      · intro ⟨e, he⟩
        simp only [parseIntComponents, ha] at he
        cases hr : parseIntComponents rest with
        | error e1 =>
          rcases ih.mp ⟨e1, hr⟩ with ⟨c, hc, hcn⟩
          exact ⟨c, List.mem_cons_of_mem v hc, hcn⟩
        | ok ints => rw [hr] at he; cases he
      · intro ⟨c, hc, hcn⟩
        rcases List.mem_cons.mp hc with rfl | hc
        · rw [ha] at hcn; cases hcn
        · rcases ih.mpr ⟨c, hc, hcn⟩ with ⟨e, he⟩
          exact ⟨e, by simp [parseIntComponents, ha, he]⟩

theorem parseIntComponents_ok_iff (comps : List String) (ints : List Int) :
    parseIntComponents comps = Except.ok ints ↔
      List.Forall₂ (fun c i => Atoi (trimSpace c) = some i) comps ints := by
  induction comps generalizing ints with
  | nil =>
    cases ints with
    | nil => simp [parseIntComponents]
    | cons i is => simp [parseIntComponents]
  | cons v rest ih =>
    constructor
    · intro h
      simp only [parseIntComponents] at h
      cases ha : Atoi (trimSpace v) with
      | none => rw [ha] at h; cases h
      | some i =>
        rw [ha] at h
        cases hr : parseIntComponents rest with
        | error e => rw [hr] at h; cases h
        | ok is =>
          rw [hr] at h
          cases h
          exact List.Forall₂.cons ha ((ih _).mp hr)
    · intro h
      cases h with
      | cons h1 h2 =>
        simp [parseIntComponents, h1, (ih _).mpr h2]

/-- C9: IntSliceFlag.Set errors exactly when some comma-separated component
fails integer parsing after trimming; on error the slice is unchanged; on
success the slice holds the parsed integers in input order. -/
theorem intSliceFlagSet_spec (old : List Int) (value : String) :
    ((IntSliceFlagSet old value).1.isSome ↔
       ∃ c ∈ value.splitOn ",", Atoi (trimSpace c) = none)
    ∧ ((IntSliceFlagSet old value).1.isSome →
        (IntSliceFlagSet old value).2 = old)
    ∧ ((IntSliceFlagSet old value).1 = none →
        List.Forall₂ (fun c i => Atoi (trimSpace c) = some i)
          (value.splitOn ",") (IntSliceFlagSet old value).2) := by
  cases h : parseIntComponents (value.splitOn ",") with
  | error e =>
    have hmem := (parseIntComponents_error_iff (value.splitOn ",")).mp ⟨e, h⟩
    simp [IntSliceFlagSet, h, hmem]
  | ok ints =>
    have hf := (parseIntComponents_ok_iff (value.splitOn ",") ints).mp h
    have hne : ¬ ∃ c ∈ value.splitOn ",", Atoi (trimSpace c) = none := by
      intro hc
      rcases (parseIntComponents_error_iff (value.splitOn ",")).mpr hc with ⟨e, he⟩
      rw [h] at he
      cases he
    simp [IntSliceFlagSet, h, hne, hf]

/-! ## InitFlags -/

/-- Default user agent of the settings package. -/
def DefaultUserAgent : String := "WebBorer 0.01"

/-- The names of the flags InitFlags registers, in registration order; a
format flag exists only when more than one output format is known. -/
def initFlagNames (outputFormats : List String) : List String :=
  ["url", "threads", "workers", "exclude", "html", "allow-upgrade", "sleep",
    "logfile", "wordlist", "extensions", "mangle", "proxy", "timeout"]
  ++ (if outputFormats.length > 1 then ["format"] else [])
  ++ ["outfile", "loglevel", "user-agent", "include-redirects",
    "spider-codes", "robots-mode", "debug-cpuprof"]

/-- ScanSettings.InitFlags: when flagsSet already holds it returns at once;
otherwise every flag is registered with the process-wide flag set (modelled
as a registry of flag names) and the IntVar, BoolVar and StringVar calls
store each default into its settings field; finally flagsSet is recorded.
runtime.NumCPU and the package-level outputFormats are parameters. -/
def InitFlags (numCPU : Int) (outputFormats : List String)
    (settings : ScanSettings) (registry : List String) :
    ScanSettings × List String :=
  if settings.flagsSet then (settings, registry)
  else
    ({ settings with
        Threads := numCPU,
        Workers := numCPU * 2,
        ParseHTML := true,
        AllowHTTPSUpgrade := false,
        LogfilePath := "",
        WordlistPath := "",
        Mangle := true,
        OutputFormat :=
          if outputFormats.length > 1 then outputFormats.headD ""
          else settings.OutputFormat,
        OutputPath := "",
        UserAgent := DefaultUserAgent,
        IncludeRedirects := false,
        DebugCPUProf := false,
        flagsSet := true },
      registry ++ initFlagNames outputFormats)

/-- C10: InitFlags records flagsSet on its first call, and calling it again
on the result changes neither the settings nor the flag registry. -/
theorem initFlags_idempotent_spec (numCPU : Int) (outputFormats : List String)
    (settings : ScanSettings) (registry : List String) :
    (InitFlags numCPU outputFormats settings registry).1.flagsSet = true
    ∧ InitFlags numCPU outputFormats
        (InitFlags numCPU outputFormats settings registry).1
        (InitFlags numCPU outputFormats settings registry).2
      = InitFlags numCPU outputFormats settings registry := by
  by_cases h : settings.flagsSet <;> simp [InitFlags, h]

/-! ## Work queue -/

/-- Modelled from the spec: the WorkQueue is code of this repository that is
not under src. Its state is the seen set of normalized URL keys together
with the pending count. -/
structure WorkQueue where
  seen : Finset String
  pending : Nat

/-- Modelled from the spec: WorkQueue.Add of one URL key: a key not yet
seen is marked seen and the pending count incremented; an already-seen key
is silently dropped. -/
def addKey (q : WorkQueue) (key : String) : WorkQueue :=
  if key ∈ q.seen then q
  else { seen := insert key q.seen, pending := q.pending + 1 }

/-- A sequence of Add calls, applied in order. -/
def addAll (q : WorkQueue) (keys : List String) : WorkQueue :=
  keys.foldl addKey q

theorem addAll_cons (q : WorkQueue) (k : String) (ks : List String) :
    addAll q (k :: ks) = addAll (addKey q k) ks := rfl

theorem addAll_pending (q : WorkQueue) (keys : List String) :
    (addAll q keys).pending = q.pending + (keys.toFinset \ q.seen).card := by
  induction keys generalizing q with
  | nil => simp [addAll]
  | cons k ks ih =>
    rw [addAll_cons, ih]
    by_cases h : k ∈ q.seen
    · have hset : insert k ks.toFinset \ q.seen = ks.toFinset \ q.seen := by
        ext x
        simp only [Finset.mem_sdiff, Finset.mem_insert]
        constructor
        · rintro ⟨rfl | hx, hxs⟩
          · exact absurd h hxs
          · exact ⟨hx, hxs⟩
        · rintro ⟨hx, hxs⟩
          exact ⟨Or.inr hx, hxs⟩
      simp [addKey, h, List.toFinset_cons, hset]
    · have hset : insert k ks.toFinset \ q.seen
          = insert k (ks.toFinset \ insert k q.seen) := by
        ext x
        simp only [Finset.mem_sdiff, Finset.mem_insert, not_or]
        constructor
        · rintro ⟨rfl | hx, hxs⟩
          · exact Or.inl rfl
          · by_cases hxk : x = k
            · exact Or.inl hxk
            · exact Or.inr ⟨hx, hxk, hxs⟩
        · rintro (rfl | ⟨hx, hxk, hxs⟩)
          · exact ⟨Or.inl rfl, h⟩
          · exact ⟨Or.inr hx, hxs⟩
      have hk : k ∉ ks.toFinset \ insert k q.seen := by simp
      simp only [addKey, h, if_false, List.toFinset_cons, hset,
        Finset.card_insert_of_not_mem hk]
      omega

theorem addAll_seen (q : WorkQueue) (keys : List String) :
    (addAll q keys).seen = q.seen ∪ keys.toFinset := by
  induction keys generalizing q with
  | nil => simp [addAll]
  | cons k ks ih =>
    rw [addAll_cons, ih]
    by_cases h : k ∈ q.seen
    · simp only [addKey, h, if_true, List.toFinset_cons]
      ext x
      simp only [Finset.mem_union, Finset.mem_insert]
      constructor
      · rintro (hx | hx)
        · exact Or.inl hx
        · exact Or.inr (Or.inr hx)
      · rintro (hx | rfl | hx)
        · exact Or.inl hx
        · exact Or.inl h
        · exact Or.inr hx
    · simp [addKey, h, List.toFinset_cons, Finset.insert_union,
        Finset.union_insert]

/-- C8: over any sequence of Add calls the pending count grows by exactly
the number of distinct keys not already seen, the seen set grows to the
union, a fresh queue ends with pending equal to the number of distinct
keys, and an Add of an already-seen key changes nothing. -/
theorem workQueue_add_spec (q : WorkQueue) (keys : List String) :
    (addAll q keys).pending = q.pending + (keys.toFinset \ q.seen).card
    ∧ (addAll q keys).seen = q.seen ∪ keys.toFinset
    ∧ (addAll ⟨∅, 0⟩ keys).pending = keys.toFinset.card
    ∧ ∀ key ∈ q.seen, addKey q key = q :=
  ⟨addAll_pending q keys, addAll_seen q keys,
    by rw [addAll_pending ⟨∅, 0⟩ keys]; simp,
    fun key hk => by simp [addKey, hk]⟩

end Webborer
